import Mathlib

/-!
Shallow embedding of the LEA block cipher implementation (lea.go).

The repository's single source file contains two variants of the same
module: a plain variant whose `RoundKey` and `encdec` validate their
`mode`/key-length arguments and abort (Go `panic`) on bad input, and a
commented variant with no validation, where an unrecognized key length
yields an empty schedule and an unrecognized mode leaves the block
untouched.  Both variants are embedded below: the aborting variant's
functions return an `Outcome` (normal result or abort message), the
commented variant's functions (suffixed `C`) are pure.

Machine words (`word` = Go `uint32`) are embedded as `Nat` with explicit
reduction modulo `M = 2^32` wherever Go's arithmetic wraps.  Bytes are
`Nat` constrained to `< 256` by validity predicates.
-/

namespace LEA

/-- 2^32, the modulus of Go `uint32` arithmetic. -/
def M : Nat := 4294967296

/-- `ENCRYPT_MODE = iota = 0` in lea.go. -/
def ENCRYPT_MODE : Nat := 0

/-- `DECRYPT_MODE = 1` in lea.go. -/
def DECRYPT_MODE : Nat := 1

/-- `ba2w` from lea.go: packs bytes `[b0 b1 b2 b3]` into the word
`b3b2b1b0` (little-endian), via shifts and bitwise or. -/
def ba2w (b0 b1 b2 b3 : Nat) : Nat :=
  (b3 <<< 24) ||| (b2 <<< 16) ||| (b1 <<< 8) ||| b0

/-- `w2ba` from lea.go: unpacks a word into four bytes, least
significant first.  Go's `byte(w >> k)` truncates to the low 8 bits. -/
def w2ba (w : Nat) : Nat × Nat × Nat × Nat :=
  (w % 256, (w >>> 8) % 256, (w >>> 16) % 256, (w >>> 24) % 256)

/-- `rol` from lea.go: `(w << (r%32)) | (w >> (32 - (r%32)))` in
`uint32` arithmetic (the left shift wraps modulo 2^32; a `uint32`
shifted right by 32 is 0 in Go, matching `Nat` division). -/
def rol (w r : Nat) : Nat :=
  ((w <<< (r % 32)) % M) ||| (w >>> (32 - r % 32))

/-- `ror` from lea.go: `(w >> (r%32)) | (w << (32 - (r%32)))` in
`uint32` arithmetic. -/
def ror (w r : Nat) : Nat :=
  (w >>> (r % 32)) ||| ((w <<< (32 - r % 32)) % M)

/-- Go `uint32` subtraction `a - b`, which wraps modulo 2^32
(for `a b < M` this is `(a + 2^32 - b) % 2^32`). -/
def wsub (a b : Nat) : Nat := (a + M - b) % M

/-- The `delta` table of 8 round constants from `RoundKey`. -/
def deltaL : List Nat :=
  [0xc3efe9db, 0x44626b02, 0x79e27c8a, 0x78df30ec,
   0x715ea49e, 0xc785da0a, 0xe04ef22a, 0xe5c40957]

/-- `delta[i]` (every access in the source has `i < 8`). -/
def delta (i : Nat) : Nat := deltaL.getD i 0

/-- A round key: Go type `[6]word`. -/
structure RK6 where
  k0 : Nat
  k1 : Nat
  k2 : Nat
  k3 : Nat
  k4 : Nat
  k5 : Nat
deriving DecidableEq, Repr

/-- The zero round key, `make([][6]word, Nr)`'s element initial value. -/
def rk0 : RK6 := ⟨0, 0, 0, 0, 0, 0⟩

/-- The six words of a round key as a list (the `[6]word` contents). -/
def RK6.toList (rk : RK6) : List Nat :=
  [rk.k0, rk.k1, rk.k2, rk.k3, rk.k4, rk.k5]

/-- The cipher state: Go `[4]word`. -/
structure Word4 where
  a : Nat
  b : Nat
  c : Nat
  d : Nat
deriving DecidableEq, Repr

/-- One round of key expansion for a 16-byte key (lea.go `case 16`):
sequential in-place updates of `T[0..3]`, then
`RK[rki] = [T0,T1,T2,T1,T3,T1]`. -/
def step128 (i : Nat) (T : List Nat) : List Nat × RK6 :=
  let T := T.set 0 (rol ((T.getD 0 0 + rol (delta (i % 4)) i) % M) 1)
  let T := T.set 1 (rol ((T.getD 1 0 + rol (delta (i % 4)) (i + 1)) % M) 3)
  let T := T.set 2 (rol ((T.getD 2 0 + rol (delta (i % 4)) (i + 2)) % M) 6)
  let T := T.set 3 (rol ((T.getD 3 0 + rol (delta (i % 4)) (i + 3)) % M) 11)
  (T, ⟨T.getD 0 0, T.getD 1 0, T.getD 2 0, T.getD 1 0, T.getD 3 0, T.getD 1 0⟩)

/-- One round of key expansion for a 24-byte key (lea.go `case 24`). -/
def step192 (i : Nat) (T : List Nat) : List Nat × RK6 :=
  let T := T.set 0 (rol ((T.getD 0 0 + rol (delta (i % 6)) i) % M) 1)
  let T := T.set 1 (rol ((T.getD 1 0 + rol (delta (i % 6)) (i + 1)) % M) 3)
  let T := T.set 2 (rol ((T.getD 2 0 + rol (delta (i % 6)) (i + 2)) % M) 6)
  let T := T.set 3 (rol ((T.getD 3 0 + rol (delta (i % 6)) (i + 3)) % M) 11)
  let T := T.set 4 (rol ((T.getD 4 0 + rol (delta (i % 6)) (i + 4)) % M) 13)
  let T := T.set 5 (rol ((T.getD 5 0 + rol (delta (i % 6)) (i + 5)) % M) 17)
  (T, ⟨T.getD 0 0, T.getD 1 0, T.getD 2 0, T.getD 3 0, T.getD 4 0, T.getD 5 0⟩)

/-- One round of key expansion for a 32-byte key (lea.go `case 32`):
updates target the rotating window `T[(6i+k) mod 8]`. -/
def step256 (i : Nat) (T : List Nat) : List Nat × RK6 :=
  let T := T.set ((6 * i) % 8)
    (rol ((T.getD ((6 * i) % 8) 0 + rol (delta (i % 8)) i) % M) 1)
  let T := T.set ((6 * i + 1) % 8)
    (rol ((T.getD ((6 * i + 1) % 8) 0 + rol (delta (i % 8)) (i + 1)) % M) 3)
  let T := T.set ((6 * i + 2) % 8)
    (rol ((T.getD ((6 * i + 2) % 8) 0 + rol (delta (i % 8)) (i + 2)) % M) 6)
  let T := T.set ((6 * i + 3) % 8)
    (rol ((T.getD ((6 * i + 3) % 8) 0 + rol (delta (i % 8)) (i + 3)) % M) 11)
  let T := T.set ((6 * i + 4) % 8)
    (rol ((T.getD ((6 * i + 4) % 8) 0 + rol (delta (i % 8)) (i + 4)) % M) 13)
  let T := T.set ((6 * i + 5) % 8)
    (rol ((T.getD ((6 * i + 5) % 8) 0 + rol (delta (i % 8)) (i + 5)) % M) 17)
  (T, ⟨T.getD ((6 * i) % 8) 0, T.getD ((6 * i + 1) % 8) 0,
       T.getD ((6 * i + 2) % 8) 0, T.getD ((6 * i + 3) % 8) 0,
       T.getD ((6 * i + 4) % 8) 0, T.getD ((6 * i + 5) % 8) 0⟩)

/-- The round keys generated (in generation order `i, i+1, ...`) by
`fuel` iterations of the key-expansion loop body from state `T`. -/
def gen (step : Nat → List Nat → List Nat × RK6) (i fuel : Nat) (T : List Nat) :
    List RK6 :=
  match fuel with
  | 0 => []
  | f + 1 =>
    let p := step i T
    p.2 :: gen step (i + 1) f p.1

/-- The `switch mode` computing the write position `rki` inside the
key-expansion loop: `i` for `ENCRYPT_MODE`, `Nr-i-1` for
`DECRYPT_MODE`; any other mode leaves Go's `var rki uint` at 0. -/
def rkIndex (mode Nr i : Nat) : Nat :=
  if mode = ENCRYPT_MODE then i else if mode = DECRYPT_MODE then Nr - i - 1 else 0

/-- The key-expansion loop of `RoundKey`: each iteration computes the
round key and writes it into `RK` at position `rkIndex mode Nr i`. -/
def ksAux (step : Nat → List Nat → List Nat × RK6) (mode Nr i fuel : Nat)
    (T : List Nat) (RK : List RK6) : List RK6 :=
  match fuel with
  | 0 => RK
  | f + 1 =>
    let p := step i T
    ksAux step mode Nr (i + 1) f p.1 (RK.set (rkIndex mode Nr i) p.2)

/-- The initial state words `T`: the key bytes packed four at a time
by `ba2w` (the loop `for i := 0; i < len(K)/4; i++` in `RoundKey`). -/
def keyWords (K : List Nat) : List Nat :=
  (List.range (K.length / 4)).map fun i =>
    ba2w (K.getD (4 * i) 0) (K.getD (4 * i + 1) 0)
         (K.getD (4 * i + 2) 0) (K.getD (4 * i + 3) 0)

/-- The result of a Go function that may `panic`: either a normal
return value or an abort carrying the panic message. -/
inductive Outcome (α : Type) where
  | ok : α → Outcome α
  | panic : String → Outcome α
deriving DecidableEq, Repr

/-- Sequencing on `Outcome`: propagate an abort, apply `f` otherwise. -/
def Outcome.bind (o : Outcome α) (f : α → Outcome β) : Outcome β :=
  match o with
  | .ok a => f a
  | .panic m => .panic m

/-- Mapping over a normal `Outcome`, propagating an abort. -/
def Outcome.map (f : α → β) : Outcome α → Outcome β
  | .ok a => .ok (f a)
  | .panic m => .panic m

/-- `RoundKey` from the plain variant of lea.go: validates the mode
(`panic("Mode is invalid")`), dispatches on the key length with
`panic("|Key| should 128, 192, or 256 bits.")` as default, and runs
the expansion loop over an `RK` array initialized to zero. -/
def RoundKey (K : List Nat) (mode : Nat) : Outcome (List RK6) :=
  if mode ≠ ENCRYPT_MODE ∧ mode ≠ DECRYPT_MODE then .panic "Mode is invalid"
  else if K.length = 16 then
    .ok (ksAux step128 mode 24 0 24 (keyWords K) (List.replicate 24 rk0))
  else if K.length = 24 then
    .ok (ksAux step192 mode 28 0 28 (keyWords K) (List.replicate 28 rk0))
  else if K.length = 32 then
    .ok (ksAux step256 mode 32 0 32 (keyWords K) (List.replicate 32 rk0))
  else .panic "|Key| should 128, 192, or 256 bits."

/-- `RoundKey` from the commented variant of lea.go: no validation; an
unrecognized key length leaves `Nr = 0`, so the returned schedule is
the empty array. -/
def RoundKeyC (K : List Nat) (mode : Nat) : List RK6 :=
  if K.length = 16 then ksAux step128 mode 24 0 24 (keyWords K) (List.replicate 24 rk0)
  else if K.length = 24 then ksAux step192 mode 28 0 28 (keyWords K) (List.replicate 28 rk0)
  else if K.length = 32 then ksAux step256 mode 32 0 32 (keyWords K) (List.replicate 32 rk0)
  else []

/-- `EncRound` from lea.go: one encryption round (additions wrap). -/
def EncRound (x : Word4) (rk : RK6) : Word4 :=
  { a := rol (((x.a ^^^ rk.k0) + (x.b ^^^ rk.k1)) % M) 9
    b := ror (((x.b ^^^ rk.k2) + (x.c ^^^ rk.k3)) % M) 5
    c := ror (((x.c ^^^ rk.k4) + (x.d ^^^ rk.k5)) % M) 3
    d := x.a }

/-- `DecRound` from lea.go: one decryption round (subtractions wrap). -/
def DecRound (x : Word4) (rk : RK6) : Word4 :=
  let t0 := x.d
  let t1 := wsub (ror x.a 9) (t0 ^^^ rk.k0) ^^^ rk.k1
  let t2 := wsub (rol x.b 5) (t1 ^^^ rk.k2) ^^^ rk.k3
  let t3 := wsub (rol x.c 3) (t2 ^^^ rk.k4) ^^^ rk.k5
  ⟨t0, t1, t2, t3⟩

/-- A 16-byte block, Go `[16]byte`. -/
structure Block16 where
  b0 : Nat
  b1 : Nat
  b2 : Nat
  b3 : Nat
  b4 : Nat
  b5 : Nat
  b6 : Nat
  b7 : Nat
  b8 : Nat
  b9 : Nat
  b10 : Nat
  b11 : Nat
  b12 : Nat
  b13 : Nat
  b14 : Nat
  b15 : Nat
deriving DecidableEq, Repr

/-- The first loop of `encdec`: the block's 16 bytes as 4 words. -/
def toWords (B : Block16) : Word4 :=
  ⟨ba2w B.b0 B.b1 B.b2 B.b3, ba2w B.b4 B.b5 B.b6 B.b7,
   ba2w B.b8 B.b9 B.b10 B.b11, ba2w B.b12 B.b13 B.b14 B.b15⟩

/-- The last loop of `encdec`: the 4 state words back to 16 bytes. -/
def fromWords (X : Word4) : Block16 :=
  let pa := w2ba X.a
  let pb := w2ba X.b
  let pc := w2ba X.c
  let pd := w2ba X.d
  ⟨pa.1, pa.2.1, pa.2.2.1, pa.2.2.2, pb.1, pb.2.1, pb.2.2.1, pb.2.2.2,
   pc.1, pc.2.1, pc.2.2.1, pc.2.2.2, pd.1, pd.2.1, pd.2.2.1, pd.2.2.2⟩

/-- The round loop of the plain variant's `encdec`: one round per
schedule entry, with `panic("Invalid mode.")` as the switch default. -/
def rounds (X : Word4) (RK : List RK6) (mode : Nat) : Outcome Word4 :=
  match RK with
  | [] => .ok X
  | rk :: rest =>
    if mode = ENCRYPT_MODE then rounds (EncRound X rk) rest mode
    else if mode = DECRYPT_MODE then rounds (DecRound X rk) rest mode
    else .panic "Invalid mode."

/-- `encdec` from the plain variant of lea.go. -/
def encdec (B : Block16) (RK : List RK6) (mode : Nat) : Outcome Block16 :=
  match rounds (toWords B) RK mode with
  | .ok X => .ok (fromWords X)
  | .panic m => .panic m

/-- `Encrypt` from the plain variant of lea.go. -/
def Encrypt (P : Block16) (RK : List RK6) : Outcome Block16 :=
  encdec P RK ENCRYPT_MODE

/-- `Decrypt` from the plain variant of lea.go. -/
def Decrypt (C : Block16) (RK : List RK6) : Outcome Block16 :=
  encdec C RK DECRYPT_MODE

/-- The round loop of the commented variant's `encdec`: its mode
switch has no default case, so an unrecognized mode applies no round
and leaves the state unchanged. -/
def roundsC (X : Word4) (RK : List RK6) (mode : Nat) : Word4 :=
  match RK with
  | [] => X
  | rk :: rest =>
    roundsC (if mode = ENCRYPT_MODE then EncRound X rk
             else if mode = DECRYPT_MODE then DecRound X rk else X) rest mode

/-- `encdec` from the commented variant of lea.go. -/
def encdecC (B : Block16) (RK : List RK6) (mode : Nat) : Block16 :=
  fromWords (roundsC (toWords B) RK mode)

/-- `Encrypt` from the commented variant of lea.go. -/
def EncryptC (P : Block16) (RK : List RK6) : Block16 :=
  encdecC P RK ENCRYPT_MODE

/-- `Decrypt` from the commented variant of lea.go. -/
def DecryptC (C : Block16) (RK : List RK6) : Block16 :=
  encdecC C RK DECRYPT_MODE

/-- A state whose four words fit in a `uint32`. -/
def Word4.valid (x : Word4) : Prop :=
  x.a < M ∧ x.b < M ∧ x.c < M ∧ x.d < M

/-- A round key whose six words fit in a `uint32`. -/
def RK6.valid (rk : RK6) : Prop :=
  rk.k0 < M ∧ rk.k1 < M ∧ rk.k2 < M ∧ rk.k3 < M ∧ rk.k4 < M ∧ rk.k5 < M

/-- A block whose sixteen entries are bytes. -/
def Block16.valid (B : Block16) : Prop :=
  B.b0 < 256 ∧ B.b1 < 256 ∧ B.b2 < 256 ∧ B.b3 < 256 ∧
  B.b4 < 256 ∧ B.b5 < 256 ∧ B.b6 < 256 ∧ B.b7 < 256 ∧
  B.b8 < 256 ∧ B.b9 < 256 ∧ B.b10 < 256 ∧ B.b11 < 256 ∧
  B.b12 < 256 ∧ B.b13 < 256 ∧ B.b14 < 256 ∧ B.b15 < 256

instance (x : Word4) : Decidable x.valid := by unfold Word4.valid; infer_instance

instance (rk : RK6) : Decidable rk.valid := by unfold RK6.valid; infer_instance

instance (B : Block16) : Decidable B.valid := by unfold Block16.valid; infer_instance

/-- All entries of a key-state list fit in a word. -/
def TValid (T : List Nat) : Prop := ∀ t ∈ T, t < M

/-- Round count by key length (24/28/32 rounds). -/
def NrOf (n : Nat) : Nat := if n = 16 then 24 else if n = 24 then 28 else 32

/-- Key-expansion round body by key length. -/
def stepOf (n : Nat) : Nat → List Nat → List Nat × RK6 :=
  if n = 16 then step128 else if n = 24 then step192 else step256

/-- The encrypt-direction key schedule in generation order. -/
def schedOf (K : List Nat) : List RK6 :=
  gen (stepOf K.length) 0 (NrOf K.length) (keyWords K)

/-- The full cipher round trip of the spec: decrypt, under the
decrypt-direction schedule, the encryption of `P` under the
encrypt-direction schedule for the same key. -/
def roundTrip (K : List Nat) (P : Block16) : Outcome Block16 :=
  (RoundKey K ENCRYPT_MODE).bind fun E =>
    (Encrypt P E).bind fun C =>
      (RoundKey K DECRYPT_MODE).bind fun D => Decrypt C D

/-- A sample 16-byte key used to instantiate universally quantified
theorems at concrete inputs. -/
def kW16 : List Nat := List.replicate 16 0

/-- A sample block used to instantiate theorems at concrete inputs. -/
def blockW : Block16 := ⟨0, 1, 2, 3, 4, 5, 6, 7, 8, 9, 10, 11, 12, 13, 14, 15⟩

/-- The encrypt-direction schedule of `kW16`, written out as the loop
term it reduces to. -/
def schedW : List RK6 :=
  ksAux step128 ENCRYPT_MODE 24 0 24 (keyWords kW16) (List.replicate 24 rk0)

/-- The first round key of `schedW`. -/
def rkW : RK6 := schedW.headD rk0

/-- The 16-byte key named by the specification's reference-vector
sentence: 000102030405060708090a0b0c0d0e0f. -/
def specKey : List Nat :=
  [0x00, 0x01, 0x02, 0x03, 0x04, 0x05, 0x06, 0x07,
   0x08, 0x09, 0x0a, 0x0b, 0x0c, 0x0d, 0x0e, 0x0f]

/-- The key of the published LEA-128 test vector:
0f1e2d3c4b5a69788796a5b4c3d2e1f0. -/
def pubKey : List Nat :=
  [0x0f, 0x1e, 0x2d, 0x3c, 0x4b, 0x5a, 0x69, 0x78,
   0x87, 0x96, 0xa5, 0xb4, 0xc3, 0xd2, 0xe1, 0xf0]

/-- The test-vector plaintext 101112131415161718191a1b1c1d1e1f. -/
def tvPlain : Block16 :=
  ⟨0x10, 0x11, 0x12, 0x13, 0x14, 0x15, 0x16, 0x17,
   0x18, 0x19, 0x1a, 0x1b, 0x1c, 0x1d, 0x1e, 0x1f⟩

/-- The published LEA-128 test-vector ciphertext
9fc84e3528c6c6185532c7a704648bfd. -/
def tvCipher : Block16 :=
  ⟨0x9f, 0xc8, 0x4e, 0x35, 0x28, 0xc6, 0xc6, 0x18,
   0x55, 0x32, 0xc7, 0xa7, 0x04, 0x64, 0x8b, 0xfd⟩

theorem Mpos : 0 < M := by norm_num [M]

theorem M_eq_pow : M = 2 ^ 32 := by norm_num [M]

/-- Bitwise or of disjoint parts is addition: the low `k` bits of
`a * 2^k` are zero, so or-ing in `b < 2^k` just adds it. -/
theorem lor_mul_pow_add (a b k : Nat) (hb : b < 2 ^ k) :
    a * 2 ^ k ||| b = a * 2 ^ k + b := by
  rw [← Nat.shiftLeft_eq]
  apply Nat.eq_of_testBit_eq
  intro i
  rw [Nat.testBit_or, Nat.testBit_shiftLeft]
  rcases Nat.lt_or_ge i k with h | h
  · have h1 : decide (i ≥ k) = false := by simp; omega
    rw [h1, Bool.false_and, Bool.false_or]
    have h2 : (a <<< k + b) % 2 ^ k = b := by
      rw [Nat.shiftLeft_eq, Nat.add_comm, Nat.add_mul_mod_self_right,
        Nat.mod_eq_of_lt hb]
    calc b.testBit i = ((a <<< k + b) % 2 ^ k).testBit i := by rw [h2]
      _ = (a <<< k + b).testBit i := by
          rw [Nat.testBit_mod_two_pow]
          simp [h]
  · have h1 : decide (i ≥ k) = true := by simpa using h
    have hb' : b.testBit i = false :=
      Nat.testBit_lt_two_pow (lt_of_lt_of_le hb (Nat.pow_le_pow_right (by omega) h))
    rw [h1, Bool.true_and, hb', Bool.or_false]
    have h2 : (a <<< k + b) >>> k = a := by
      rw [Nat.shiftLeft_eq, Nat.shiftRight_eq_div_pow, Nat.add_comm,
        Nat.add_mul_div_right _ _ (Nat.pos_pow_of_pos k (by omega)),
        Nat.div_eq_of_lt hb, Nat.zero_add]
    calc a.testBit (i - k) = ((a <<< k + b) >>> k).testBit (i - k) := by rw [h2]
      _ = (a <<< k + b).testBit (k + (i - k)) := by rw [Nat.testBit_shiftRight]
      _ = (a <<< k + b).testBit i := by congr 1; omega

theorem pow_split (s : Nat) (hs : s ≤ 32) : 2 ^ (32 - s) * 2 ^ s = M := by
  rw [← Nat.pow_add, M_eq_pow]
  congr 1
  omega

/-- `rol` in arithmetic form: the rotated word splits into the high
part moved down and the low part moved up. -/
theorem rol_eq (w r : Nat) (hw : w < M) :
    rol w r = w % 2 ^ (32 - r % 32) * 2 ^ (r % 32) + w / 2 ^ (32 - r % 32) := by
  have hs : r % 32 < 32 := Nat.mod_lt _ (by norm_num)
  have hM : 2 ^ (32 - r % 32) * 2 ^ (r % 32) = M := pow_split _ (by omega)
  have hd : w / 2 ^ (32 - r % 32) < 2 ^ (r % 32) := by
    rw [Nat.div_lt_iff_lt_mul (Nat.pos_pow_of_pos _ (by omega))]
    rw [Nat.mul_comm] at hM
    omega
  unfold rol
  rw [Nat.shiftLeft_eq, Nat.shiftRight_eq_div_pow, ← hM, Nat.mul_mod_mul_right]
  exact lor_mul_pow_add _ _ _ hd

/-- `ror` in arithmetic form. -/
theorem ror_eq (w r : Nat) (hw : w < M) :
    ror w r = w % 2 ^ (r % 32) * 2 ^ (32 - r % 32) + w / 2 ^ (r % 32) := by
  have hs : r % 32 < 32 := Nat.mod_lt _ (by norm_num)
  have hM : 2 ^ (r % 32) * 2 ^ (32 - r % 32) = M := by
    rw [Nat.mul_comm]
    exact pow_split _ (by omega)
  have hd : w / 2 ^ (r % 32) < 2 ^ (32 - r % 32) := by
    rw [Nat.div_lt_iff_lt_mul (Nat.pos_pow_of_pos _ (by omega))]
    rw [Nat.mul_comm] at hM
    omega
  unfold ror
  rw [Nat.shiftLeft_eq, Nat.shiftRight_eq_div_pow, ← hM, Nat.mul_mod_mul_right,
    Nat.lor_comm]
  exact lor_mul_pow_add _ _ _ hd

theorem rol_lt (w r : Nat) (hw : w < M) : rol w r < M := by
  rw [rol_eq w r hw]
  have hs : r % 32 < 32 := Nat.mod_lt _ (by norm_num)
  have hM : 2 ^ (32 - r % 32) * 2 ^ (r % 32) = M := pow_split _ (by omega)
  have h1 : w % 2 ^ (32 - r % 32) < 2 ^ (32 - r % 32) :=
    Nat.mod_lt _ (Nat.pos_pow_of_pos _ (by omega))
  have hd : w / 2 ^ (32 - r % 32) < 2 ^ (r % 32) := by
    rw [Nat.div_lt_iff_lt_mul (Nat.pos_pow_of_pos _ (by omega))]
    rw [Nat.mul_comm] at hM
    omega
  calc w % 2 ^ (32 - r % 32) * 2 ^ (r % 32) + w / 2 ^ (32 - r % 32)
      < (w % 2 ^ (32 - r % 32) + 1) * 2 ^ (r % 32) := by
        rw [Nat.add_mul, Nat.one_mul]
        omega
    _ ≤ 2 ^ (32 - r % 32) * 2 ^ (r % 32) := Nat.mul_le_mul_right _ h1
    _ = M := hM

theorem ror_lt (w r : Nat) (hw : w < M) : ror w r < M := by
  rw [ror_eq w r hw]
  have hs : r % 32 < 32 := Nat.mod_lt _ (by norm_num)
  have hM : 2 ^ (r % 32) * 2 ^ (32 - r % 32) = M := by
    rw [Nat.mul_comm]
    exact pow_split _ (by omega)
  have h1 : w % 2 ^ (r % 32) < 2 ^ (r % 32) :=
    Nat.mod_lt _ (Nat.pos_pow_of_pos _ (by omega))
  have hd : w / 2 ^ (r % 32) < 2 ^ (32 - r % 32) := by
    rw [Nat.div_lt_iff_lt_mul (Nat.pos_pow_of_pos _ (by omega))]
    rw [Nat.mul_comm] at hM
    omega
  calc w % 2 ^ (r % 32) * 2 ^ (32 - r % 32) + w / 2 ^ (r % 32)
      < (w % 2 ^ (r % 32) + 1) * 2 ^ (32 - r % 32) := by
        rw [Nat.add_mul, Nat.one_mul]
        omega
    _ ≤ 2 ^ (r % 32) * 2 ^ (32 - r % 32) := Nat.mul_le_mul_right _ h1
    _ = M := hM

/-- Rotating left then right by the same amount is the identity. -/
theorem ror_rol (w r : Nat) (hw : w < M) : ror (rol w r) r = w := by
  have hs : r % 32 < 32 := Nat.mod_lt _ (by norm_num)
  have hpos1 : 0 < 2 ^ (r % 32) := Nat.pos_pow_of_pos _ (by omega)
  have hpos2 : 0 < 2 ^ (32 - r % 32) := Nat.pos_pow_of_pos _ (by omega)
  have hM : 2 ^ (32 - r % 32) * 2 ^ (r % 32) = M := pow_split _ (by omega)
  have hd : w / 2 ^ (32 - r % 32) < 2 ^ (r % 32) := by
    rw [Nat.div_lt_iff_lt_mul hpos2]
    rw [Nat.mul_comm] at hM
    omega
  rw [ror_eq _ r (rol_lt w r hw), rol_eq w r hw]
  rw [Nat.add_comm (w % 2 ^ (32 - r % 32) * 2 ^ (r % 32)) (w / 2 ^ (32 - r % 32))]
  rw [Nat.add_mul_mod_self_right, Nat.mod_eq_of_lt hd]
  rw [Nat.add_mul_div_right _ _ hpos1, Nat.div_eq_of_lt hd, Nat.zero_add]
  exact Nat.div_add_mod' w (2 ^ (32 - r % 32))

/-- Rotating right then left by the same amount is the identity. -/
theorem rol_ror (w r : Nat) (hw : w < M) : rol (ror w r) r = w := by
  have hs : r % 32 < 32 := Nat.mod_lt _ (by norm_num)
  have hpos1 : 0 < 2 ^ (r % 32) := Nat.pos_pow_of_pos _ (by omega)
  have hpos2 : 0 < 2 ^ (32 - r % 32) := Nat.pos_pow_of_pos _ (by omega)
  have hM : 2 ^ (r % 32) * 2 ^ (32 - r % 32) = M := by
    rw [Nat.mul_comm]
    exact pow_split _ (by omega)
  have hd : w / 2 ^ (r % 32) < 2 ^ (32 - r % 32) := by
    rw [Nat.div_lt_iff_lt_mul hpos1]
    rw [Nat.mul_comm] at hM
    omega
  rw [rol_eq _ r (ror_lt w r hw), ror_eq w r hw]
  rw [Nat.add_comm (w % 2 ^ (r % 32) * 2 ^ (32 - r % 32)) (w / 2 ^ (r % 32))]
  rw [Nat.add_mul_mod_self_right, Nat.mod_eq_of_lt hd]
  rw [Nat.add_mul_div_right _ _ hpos2, Nat.div_eq_of_lt hd, Nat.zero_add]
  exact Nat.div_add_mod' w (2 ^ (r % 32))

theorem xor_lt (a b : Nat) (ha : a < M) (hb : b < M) : a ^^^ b < M := by
  rw [M_eq_pow] at *
  apply Nat.lt_pow_two_of_testBit
  intro i hi
  have hpow : (2 : Nat) ^ 32 ≤ 2 ^ i := Nat.pow_le_pow_right (by omega) hi
  rw [Nat.testBit_xor, Nat.testBit_lt_two_pow (lt_of_lt_of_le ha hpow),
    Nat.testBit_lt_two_pow (lt_of_lt_of_le hb hpow)]
  rfl

/-- Wrapping subtraction undoes wrapping addition. -/
theorem wsub_add_cancel (u v : Nat) (hu : u < M) (hv : v < M) :
    wsub ((u + v) % M) u = v := by
  unfold wsub M at *
  omega

theorem EncRound_valid (x : Word4) (rk : RK6) (hx : x.valid) :
    (EncRound x rk).valid := by
  exact ⟨rol_lt _ _ (Nat.mod_lt _ Mpos), ror_lt _ _ (Nat.mod_lt _ Mpos),
    ror_lt _ _ (Nat.mod_lt _ Mpos), hx.1⟩

/-- `DecRound` undoes `EncRound` under the same round key. -/
theorem DecRound_EncRound (x : Word4) (rk : RK6) (hx : x.valid) (hrk : RK6.valid rk) :
    DecRound (EncRound x rk) rk = x := by
  obtain ⟨a, b, c, d⟩ := x
  obtain ⟨hA, hB, hC, hD⟩ := hx
  obtain ⟨h0, h1, h2, h3, h4, h5⟩ := hrk
  simp only [EncRound, DecRound]
  have e1 : wsub (ror (rol (((a ^^^ rk.k0) + (b ^^^ rk.k1)) % M) 9) 9) (a ^^^ rk.k0) ^^^
      rk.k1 = b := by
    rw [ror_rol _ _ (Nat.mod_lt _ Mpos),
      wsub_add_cancel _ _ (xor_lt _ _ hA h0) (xor_lt _ _ hB h1), Nat.xor_cancel_right]
  rw [e1]
  have e2 : wsub (rol (ror (((b ^^^ rk.k2) + (c ^^^ rk.k3)) % M) 5) 5) (b ^^^ rk.k2) ^^^
      rk.k3 = c := by
    rw [rol_ror _ _ (Nat.mod_lt _ Mpos),
      wsub_add_cancel _ _ (xor_lt _ _ hB h2) (xor_lt _ _ hC h3), Nat.xor_cancel_right]
  rw [e2]
  have e3 : wsub (rol (ror (((c ^^^ rk.k4) + (d ^^^ rk.k5)) % M) 3) 3) (c ^^^ rk.k4) ^^^
      rk.k5 = d := by
    rw [rol_ror _ _ (Nat.mod_lt _ Mpos),
      wsub_add_cancel _ _ (xor_lt _ _ hC h4) (xor_lt _ _ hD h5), Nat.xor_cancel_right]
  rw [e3]

theorem foldl_EncRound_valid (L : List RK6) (X : Word4) (hX : X.valid) :
    (L.foldl EncRound X).valid := by
  induction L generalizing X with
  | nil => exact hX
  | cons rk rest ih => exact ih _ (EncRound_valid _ _ hX)

/-- Folding `DecRound` over the reversed key list undoes folding
`EncRound` over the key list. -/
theorem foldl_DecRound_reverse (L : List RK6) (X : Word4) (hX : X.valid)
    (hL : ∀ rk ∈ L, RK6.valid rk) :
    L.reverse.foldl DecRound (L.foldl EncRound X) = X := by
  induction L using List.reverseRecOn with
  | nil => rfl
  | append_singleton L rk ih =>
    simp only [List.foldl_append, List.foldl_cons, List.foldl_nil, List.reverse_append,
      List.reverse_cons, List.reverse_nil, List.nil_append, List.singleton_append]
    rw [DecRound_EncRound _ _ (foldl_EncRound_valid L X hX) (hL rk (by simp))]
    exact ih fun r hr => hL r (by simp [hr])

theorem rounds_encrypt (L : List RK6) (X : Word4) :
    rounds X L ENCRYPT_MODE = .ok (L.foldl EncRound X) := by
  induction L generalizing X with
  | nil => rfl
  | cons rk rest ih => simp [rounds, ih]

theorem rounds_decrypt (L : List RK6) (X : Word4) :
    rounds X L DECRYPT_MODE = .ok (L.foldl DecRound X) := by
  induction L generalizing X with
  | nil => rfl
  | cons rk rest ih =>
    simp [rounds, ENCRYPT_MODE, DECRYPT_MODE]
    exact ih _

/-- `ba2w` in arithmetic form. -/
theorem ba2w_eq (b0 b1 b2 b3 : Nat) (h0 : b0 < 256) (h1 : b1 < 256) (h2 : b2 < 256) :
    ba2w b0 b1 b2 b3 = b3 * 16777216 + b2 * 65536 + b1 * 256 + b0 := by
  unfold ba2w
  simp only [Nat.shiftLeft_eq]
  rw [Nat.lor_assoc, Nat.lor_assoc]
  rw [lor_mul_pow_add b1 b0 8 (lt_of_lt_of_le h0 (by norm_num))]
  rw [lor_mul_pow_add b2 (b1 * 2 ^ 8 + b0) 16 (by norm_num; omega)]
  rw [lor_mul_pow_add b3 (b2 * 2 ^ 16 + (b1 * 2 ^ 8 + b0)) 24 (by norm_num; omega)]
  norm_num
  omega

theorem ba2w_lt (b0 b1 b2 b3 : Nat) (h0 : b0 < 256) (h1 : b1 < 256) (h2 : b2 < 256)
    (h3 : b3 < 256) : ba2w b0 b1 b2 b3 < M := by
  rw [ba2w_eq b0 b1 b2 b3 h0 h1 h2]
  unfold M
  omega

/-- Unpacking a packed byte quadruple recovers the bytes. -/
theorem w2ba_ba2w (b0 b1 b2 b3 : Nat) (h0 : b0 < 256) (h1 : b1 < 256) (h2 : b2 < 256)
    (h3 : b3 < 256) : w2ba (ba2w b0 b1 b2 b3) = (b0, b1, b2, b3) := by
  unfold w2ba
  rw [ba2w_eq b0 b1 b2 b3 h0 h1 h2]
  simp only [Nat.shiftRight_eq_div_pow]
  rw [show (2 : Nat) ^ 8 = 256 from by norm_num,
    show (2 : Nat) ^ 16 = 65536 from by norm_num,
    show (2 : Nat) ^ 24 = 16777216 from by norm_num]
  simp only [Prod.mk.injEq]
  refine ⟨?_, ?_, ?_, ?_⟩ <;> omega

/-- Packing the unpacked bytes of a word recovers the word. -/
theorem ba2w_w2ba (w : Nat) (hw : w < M) :
    ba2w (w2ba w).1 (w2ba w).2.1 (w2ba w).2.2.1 (w2ba w).2.2.2 = w := by
  unfold w2ba
  dsimp only
  rw [ba2w_eq _ _ _ _ (Nat.mod_lt _ (by norm_num)) (Nat.mod_lt _ (by norm_num))
    (Nat.mod_lt _ (by norm_num))]
  simp only [Nat.shiftRight_eq_div_pow]
  rw [show (2 : Nat) ^ 8 = 256 from by norm_num,
    show (2 : Nat) ^ 16 = 65536 from by norm_num,
    show (2 : Nat) ^ 24 = 16777216 from by norm_num]
  unfold M at hw
  omega

theorem fromWords_toWords (B : Block16) (hB : B.valid) : fromWords (toWords B) = B := by
  obtain ⟨b0, b1, b2, b3, b4, b5, b6, b7, b8, b9, b10, b11, b12, b13, b14, b15⟩ := B
  obtain ⟨h0, h1, h2, h3, h4, h5, h6, h7, h8, h9, h10, h11, h12, h13, h14, h15⟩ := hB
  simp only [toWords, fromWords]
  rw [w2ba_ba2w _ _ _ _ h0 h1 h2 h3, w2ba_ba2w _ _ _ _ h4 h5 h6 h7,
    w2ba_ba2w _ _ _ _ h8 h9 h10 h11, w2ba_ba2w _ _ _ _ h12 h13 h14 h15]

theorem toWords_fromWords (X : Word4) (hX : X.valid) : toWords (fromWords X) = X := by
  obtain ⟨a, b, c, d⟩ := X
  obtain ⟨hA, hB, hC, hD⟩ := hX
  simp only [toWords, fromWords]
  rw [ba2w_w2ba a hA, ba2w_w2ba b hB, ba2w_w2ba c hC, ba2w_w2ba d hD]

theorem toWords_valid (B : Block16) (hB : B.valid) : (toWords B).valid := by
  obtain ⟨h0, h1, h2, h3, h4, h5, h6, h7, h8, h9, h10, h11, h12, h13, h14, h15⟩ := hB
  exact ⟨ba2w_lt _ _ _ _ h0 h1 h2 h3, ba2w_lt _ _ _ _ h4 h5 h6 h7,
    ba2w_lt _ _ _ _ h8 h9 h10 h11, ba2w_lt _ _ _ _ h12 h13 h14 h15⟩

theorem getD_lt (T : List Nat) (c n : Nat) (hT : ∀ t ∈ T, t < c) (hc : 0 < c) :
    T.getD n 0 < c := by
  rcases h : T[n]? with _ | x
  · simp [List.getD_eq_getElem?_getD, h, hc]
  · have hx := hT x (List.getElem?_mem h)
    simp [List.getD_eq_getElem?_getD, h, hx]

theorem TValid_set (T : List Nat) (n v : Nat) (hT : TValid T) (hv : v < M) :
    TValid (T.set n v) := by
  intro t ht
  rcases List.mem_or_eq_of_mem_set ht with h | h
  · exact hT t h
  · omega

theorem TValid_set_rol (T : List Nat) (hT : TValid T) (n x s : Nat) :
    TValid (T.set n (rol (x % M) s)) :=
  TValid_set _ _ _ hT (rol_lt _ _ (Nat.mod_lt _ Mpos))

theorem step128_valid (i : Nat) (T : List Nat) (hT : TValid T) :
    TValid (step128 i T).1 ∧ RK6.valid (step128 i T).2 := by
  have v4 : TValid (step128 i T).1 :=
    TValid_set_rol _ (TValid_set_rol _ (TValid_set_rol _ (TValid_set_rol _ hT _ _ _)
      _ _ _) _ _ _) _ _ _
  exact ⟨v4, getD_lt _ M 0 v4 Mpos, getD_lt _ M 1 v4 Mpos, getD_lt _ M 2 v4 Mpos,
    getD_lt _ M 1 v4 Mpos, getD_lt _ M 3 v4 Mpos, getD_lt _ M 1 v4 Mpos⟩

theorem step192_valid (i : Nat) (T : List Nat) (hT : TValid T) :
    TValid (step192 i T).1 ∧ RK6.valid (step192 i T).2 := by
  have v6 : TValid (step192 i T).1 :=
    TValid_set_rol _ (TValid_set_rol _ (TValid_set_rol _ (TValid_set_rol _
      (TValid_set_rol _ (TValid_set_rol _ hT _ _ _) _ _ _) _ _ _) _ _ _) _ _ _) _ _ _
  exact ⟨v6, getD_lt _ M 0 v6 Mpos, getD_lt _ M 1 v6 Mpos, getD_lt _ M 2 v6 Mpos,
    getD_lt _ M 3 v6 Mpos, getD_lt _ M 4 v6 Mpos, getD_lt _ M 5 v6 Mpos⟩

theorem step256_valid (i : Nat) (T : List Nat) (hT : TValid T) :
    TValid (step256 i T).1 ∧ RK6.valid (step256 i T).2 := by
  have v8 : TValid (step256 i T).1 :=
    TValid_set_rol _ (TValid_set_rol _ (TValid_set_rol _ (TValid_set_rol _
      (TValid_set_rol _ (TValid_set_rol _ hT _ _ _) _ _ _) _ _ _) _ _ _) _ _ _) _ _ _
  exact ⟨v8, getD_lt _ M _ v8 Mpos, getD_lt _ M _ v8 Mpos, getD_lt _ M _ v8 Mpos,
    getD_lt _ M _ v8 Mpos, getD_lt _ M _ v8 Mpos, getD_lt _ M _ v8 Mpos⟩

theorem gen_length (step : Nat → List Nat → List Nat × RK6) (i fuel : Nat)
    (T : List Nat) : (gen step i fuel T).length = fuel := by
  induction fuel generalizing i T with
  | zero => rfl
  | succ f ih => simp [gen, ih]

theorem gen_valid (step : Nat → List Nat → List Nat × RK6)
    (hstep : ∀ i T, TValid T → TValid (step i T).1 ∧ RK6.valid (step i T).2)
    (i fuel : Nat) (T : List Nat) (hT : TValid T) :
    ∀ rk ∈ gen step i fuel T, RK6.valid rk := by
  induction fuel generalizing i T with
  | zero => intro rk h; simp [gen] at h
  | succ f ih =>
    intro rk h
    simp only [gen, List.mem_cons] at h
    rcases h with h | h
    · subst h; exact (hstep i T hT).2
    · exact ih (i + 1) _ (hstep i T hT).1 rk h

theorem keyWords_valid (K : List Nat) (hK : ∀ b ∈ K, b < 256) : TValid (keyWords K) := by
  intro w hw
  simp only [keyWords, List.mem_map, List.mem_range] at hw
  obtain ⟨j, hj, rfl⟩ := hw
  exact ba2w_lt _ _ _ _ (getD_lt _ 256 _ hK (by norm_num))
    (getD_lt _ 256 _ hK (by norm_num)) (getD_lt _ 256 _ hK (by norm_num))
    (getD_lt _ 256 _ hK (by norm_num))

theorem ksAux_length (step : Nat → List Nat → List Nat × RK6) (mode Nr i fuel : Nat)
    (T : List Nat) (RK : List RK6) :
    (ksAux step mode Nr i fuel T RK).length = RK.length := by
  induction fuel generalizing i T RK with
  | zero => rfl
  | succ f ih => simp [ksAux, ih]

theorem rkIndex_encrypt (Nr i : Nat) : rkIndex ENCRYPT_MODE Nr i = i := if_pos rfl

theorem rkIndex_decrypt (Nr i : Nat) : rkIndex DECRYPT_MODE Nr i = Nr - i - 1 := by
  norm_num [rkIndex, ENCRYPT_MODE, DECRYPT_MODE]

/-- Positions written so far by the encrypt-direction loop hold the
generated round keys at their generation index; the rest of `RK` is
untouched. -/
theorem ksAux_encrypt_getElem (step : Nat → List Nat → List Nat × RK6) (Nr i fuel : Nat)
    (T : List Nat) (RK : List RK6) (hlen : RK.length = Nr) (hif : i + fuel ≤ Nr)
    (j : Nat) :
    (ksAux step ENCRYPT_MODE Nr i fuel T RK)[j]? =
      if i ≤ j ∧ j < i + fuel then (gen step i fuel T)[j - i]? else RK[j]? := by
  induction fuel generalizing i T RK j with
  | zero =>
    simp only [ksAux]
    rw [if_neg (by omega)]
  | succ f ih =>
    simp only [ksAux, gen, rkIndex_encrypt]
    rw [ih (i + 1) (step i T).1 (RK.set i (step i T).2) (by simp [hlen]) (by omega) j]
    by_cases hA : i + 1 ≤ j ∧ j < i + 1 + f
    · rw [if_pos hA, if_pos (by omega)]
      have he : j - i = (j - (i + 1)) + 1 := by omega
      rw [he, List.getElem?_cons_succ]
    · by_cases hB : j = i
      · subst hB
        rw [if_neg hA, if_pos (by omega)]
        rw [List.getElem?_set_self (by omega), Nat.sub_self, List.getElem?_cons_zero]
      · rw [if_neg hA, if_neg (by omega)]
        exact List.getElem?_set_ne (by omega)

/-- Positions written so far by the decrypt-direction loop hold the
generated round keys in reversed position order. -/
theorem ksAux_decrypt_getElem (step : Nat → List Nat → List Nat × RK6) (Nr i fuel : Nat)
    (T : List Nat) (RK : List RK6) (hlen : RK.length = Nr) (hif : i + fuel ≤ Nr)
    (j : Nat) :
    (ksAux step DECRYPT_MODE Nr i fuel T RK)[j]? =
      if Nr - i - fuel ≤ j ∧ j < Nr - i then (gen step i fuel T)[Nr - 1 - j - i]?
      else RK[j]? := by
  induction fuel generalizing i T RK j with
  | zero =>
    simp only [ksAux]
    rw [if_neg (by omega)]
  | succ f ih =>
    simp only [ksAux, gen, rkIndex_decrypt]
    rw [ih (i + 1) (step i T).1 (RK.set (Nr - i - 1) (step i T).2) (by simp [hlen])
      (by omega) j]
    by_cases hA : Nr - (i + 1) - f ≤ j ∧ j < Nr - (i + 1)
    · rw [if_pos hA, if_pos (by omega)]
      have he : Nr - 1 - j - i = (Nr - 1 - j - (i + 1)) + 1 := by omega
      rw [he, List.getElem?_cons_succ]
    · by_cases hB : j = Nr - i - 1
      · subst hB
        rw [if_neg hA, if_pos (by omega)]
        rw [List.getElem?_set_self (by omega)]
        have he : Nr - 1 - (Nr - i - 1) - i = 0 := by omega
        rw [he, List.getElem?_cons_zero]
      · rw [if_neg hA, if_neg (by omega)]
        exact List.getElem?_set_ne (by omega)

/-- A full encrypt-direction run of the loop produces the round keys in
generation order. -/
theorem ksAux_encrypt_full (step : Nat → List Nat → List Nat × RK6) (Nr : Nat)
    (T : List Nat) :
    ksAux step ENCRYPT_MODE Nr 0 Nr T (List.replicate Nr rk0) = gen step 0 Nr T := by
  apply List.ext_getElem?
  intro j
  rw [ksAux_encrypt_getElem step Nr 0 Nr T _ (by simp) (by omega) j]
  by_cases hj : j < Nr
  · rw [if_pos (by omega), Nat.sub_zero]
  · rw [if_neg (by omega), List.getElem?_eq_none (by simp; omega),
      List.getElem?_eq_none (by rw [gen_length]; omega)]

/-- A full decrypt-direction run of the loop produces the round keys in
reverse generation order. -/
theorem ksAux_decrypt_full (step : Nat → List Nat → List Nat × RK6) (Nr : Nat)
    (T : List Nat) :
    ksAux step DECRYPT_MODE Nr 0 Nr T (List.replicate Nr rk0) =
      (gen step 0 Nr T).reverse := by
  apply List.ext_getElem?
  intro j
  rw [ksAux_decrypt_getElem step Nr 0 Nr T _ (by simp) (by omega) j]
  by_cases hj : j < Nr
  · rw [if_pos (by omega), List.getElem?_reverse (by rw [gen_length]; omega), gen_length,
      Nat.sub_zero]
  · rw [if_neg (by omega), List.getElem?_eq_none (by simp; omega),
      List.getElem?_eq_none (by rw [List.length_reverse, gen_length]; omega)]

theorem RoundKey_encrypt_eq (K : List Nat)
    (h : K.length = 16 ∨ K.length = 24 ∨ K.length = 32) :
    RoundKey K ENCRYPT_MODE = .ok (schedOf K) := by
  have hmode : ¬(ENCRYPT_MODE ≠ ENCRYPT_MODE ∧ ENCRYPT_MODE ≠ DECRYPT_MODE) := by simp
  unfold RoundKey schedOf stepOf NrOf
  rw [if_neg hmode]
  rcases h with h | h | h <;> rw [h]
  · rw [if_pos rfl, if_pos rfl, if_pos rfl, ksAux_encrypt_full]
  · have h1 : (24 : Nat) ≠ 16 := by norm_num
    rw [if_neg h1, if_neg h1, if_neg h1, if_pos rfl, if_pos rfl, if_pos rfl,
      ksAux_encrypt_full]
  · have h1 : (32 : Nat) ≠ 16 := by norm_num
    have h2 : (32 : Nat) ≠ 24 := by norm_num
    rw [if_neg h1, if_neg h1, if_neg h1, if_neg h2, if_neg h2, if_neg h2, if_pos rfl,
      ksAux_encrypt_full]

theorem RoundKey_decrypt_eq (K : List Nat)
    (h : K.length = 16 ∨ K.length = 24 ∨ K.length = 32) :
    RoundKey K DECRYPT_MODE = .ok (schedOf K).reverse := by
  have hmode : ¬(DECRYPT_MODE ≠ ENCRYPT_MODE ∧ DECRYPT_MODE ≠ DECRYPT_MODE) := by simp
  unfold RoundKey schedOf stepOf NrOf
  rw [if_neg hmode]
  rcases h with h | h | h <;> rw [h]
  · rw [if_pos rfl, if_pos rfl, if_pos rfl, ksAux_decrypt_full]
  · have h1 : (24 : Nat) ≠ 16 := by norm_num
    rw [if_neg h1, if_neg h1, if_neg h1, if_pos rfl, if_pos rfl, if_pos rfl,
      ksAux_decrypt_full]
  · have h1 : (32 : Nat) ≠ 16 := by norm_num
    have h2 : (32 : Nat) ≠ 24 := by norm_num
    rw [if_neg h1, if_neg h1, if_neg h1, if_neg h2, if_neg h2, if_neg h2, if_pos rfl,
      ksAux_decrypt_full]

theorem schedOf_valid (K : List Nat) (hK : ∀ b ∈ K, b < 256) :
    ∀ rk ∈ schedOf K, RK6.valid rk := by
  have hstep : ∀ i T, TValid T → TValid ((stepOf K.length) i T).1 ∧
      RK6.valid ((stepOf K.length) i T).2 := by
    intro i T hT
    unfold stepOf
    split_ifs
    · exact step128_valid i T hT
    · exact step192_valid i T hT
    · exact step256_valid i T hT
  exact gen_valid _ hstep 0 _ _ (keyWords_valid K hK)

theorem Encrypt_eq (P : Block16) (L : List RK6) :
    Encrypt P L = .ok (fromWords (L.foldl EncRound (toWords P))) := by
  unfold Encrypt encdec
  rw [rounds_encrypt]

theorem Decrypt_eq (C : Block16) (L : List RK6) :
    Decrypt C L = .ok (fromWords (L.foldl DecRound (toWords C))) := by
  unfold Decrypt encdec
  rw [rounds_decrypt]

/-- Decrypting an encrypted block under the reversed key list recovers
the block. -/
theorem encrypt_then_decrypt (L : List RK6) (P : Block16) (hP : P.valid)
    (hL : ∀ rk ∈ L, RK6.valid rk) :
    Decrypt (fromWords (L.foldl EncRound (toWords P))) L.reverse = .ok P := by
  rw [Decrypt_eq, toWords_fromWords _ (foldl_EncRound_valid L _ (toWords_valid P hP)),
    foldl_DecRound_reverse L _ (toWords_valid P hP) hL, fromWords_toWords _ hP]

/-- Any write-position invariant of the round-key loop body carries
over to every entry of the finished schedule. -/
theorem ksAux_mem_invariant (step : Nat → List Nat → List Nat × RK6) (Q : RK6 → Prop)
    (hstep : ∀ i T, Q (step i T).2) (mode Nr i fuel : Nat) (T : List Nat)
    (RK : List RK6) (hRK : ∀ rk ∈ RK, Q rk) :
    ∀ rk ∈ ksAux step mode Nr i fuel T RK, Q rk := by
  induction fuel generalizing i T RK with
  | zero => exact hRK
  | succ f ih =>
    simp only [ksAux]
    apply ih
    intro rk hrk
    rcases List.mem_or_eq_of_mem_set hrk with h | h
    · exact hRK rk h
    · subst h; exact hstep i T

/-- With an unrecognized mode, the commented variant's round loop has
no case to run and leaves the state unchanged. -/
theorem roundsC_invalid (m : Nat) (h0 : m ≠ ENCRYPT_MODE) (h1 : m ≠ DECRYPT_MODE)
    (RK : List RK6) : ∀ X : Word4, roundsC X RK m = X := by
  induction RK with
  | nil => intro X; rfl
  | cons rk rest ih =>
    intro X
    simp only [roundsC, if_neg h0, if_neg h1]
    exact ih _

/-- C1: for every key of length 16, 24, or 32 bytes and every 16-byte
block P, decrypting under the decrypt-direction schedule the encryption
of P under the encrypt-direction schedule returns P:
Decrypt(Encrypt(P, RoundKey(K, ENCRYPT_MODE)), RoundKey(K, DECRYPT_MODE)) = P. -/
theorem C1_round_trip (K : List Nat) (P : Block16)
    (hK : K.length = 16 ∨ K.length = 24 ∨ K.length = 32)
    (hKb : ∀ b ∈ K, b < 256) (hP : P.valid) :
    roundTrip K P = .ok P := by
  unfold roundTrip
  rw [RoundKey_encrypt_eq K hK, RoundKey_decrypt_eq K hK]
  simp only [Outcome.bind]
  rw [Encrypt_eq]
  simp only [Outcome.bind]
  exact encrypt_then_decrypt _ P hP (schedOf_valid K hKb)

/-- Witness for C1 at a concrete 16-byte key and block. -/
theorem C1_round_trip_witness : roundTrip kW16 blockW = .ok blockW :=
  C1_round_trip kW16 blockW (by simp [kW16]) (by decide) (by decide)

set_option maxRecDepth 20000 in
/-- C2 counterexample: with the key 000102030405060708090a0b0c0d0e0f
named by the claim, the code does not produce the claimed ciphertext
9fc84e3528c6c6185532c7a704648bfd, nor does decrypting that ciphertext
give back the plaintext. -/
theorem C2_spec_key_fails :
    ¬((RoundKey specKey ENCRYPT_MODE).bind (fun rk => Encrypt tvPlain rk) =
        .ok tvCipher ∧
      (RoundKey specKey DECRYPT_MODE).bind (fun rk => Decrypt tvCipher rk) =
        .ok tvPlain) := by
  intro h
  exact absurd h.1 (by decide)

set_option maxRecDepth 20000 in
/-- C2 amended: with the published LEA-128 test-vector key
0f1e2d3c4b5a69788796a5b4c3d2e1f0, encrypting the plaintext
101112131415161718191a1b1c1d1e1f gives exactly the published
ciphertext 9fc84e3528c6c6185532c7a704648bfd, and decrypting that
ciphertext under the decrypt-direction schedule gives the plaintext. -/
theorem C2_test_vector :
    (RoundKey pubKey ENCRYPT_MODE).bind (fun rk => Encrypt tvPlain rk) =
      .ok tvCipher ∧
    (RoundKey pubKey DECRYPT_MODE).bind (fun rk => Decrypt tvCipher rk) =
      .ok tvPlain := by
  constructor
  · decide
  · decide

/-- C3: for every 4-word state and 6-word round key (words below 2^32),
DecRound is the exact inverse of EncRound. -/
theorem C3_DecRound_inverts_EncRound (x : Word4) (rk : RK6) (hx : x.valid)
    (hrk : RK6.valid rk) : DecRound (EncRound x rk) rk = x :=
  DecRound_EncRound x rk hx hrk

/-- Witness for C3 at a concrete state and round key. -/
theorem C3_witness :
    DecRound (EncRound ⟨1, 2, 3, 4⟩ ⟨5, 6, 7, 8, 9, 10⟩) ⟨5, 6, 7, 8, 9, 10⟩ =
      ⟨1, 2, 3, 4⟩ :=
  C3_DecRound_inverts_EncRound ⟨1, 2, 3, 4⟩ ⟨5, 6, 7, 8, 9, 10⟩ (by decide) (by decide)

/-- C4: for every valid key, the decrypt-direction schedule holds the
same round keys as the encrypt-direction schedule in reverse position
order: position i holds what the encrypt schedule holds at Nr-1-i. -/
theorem C4_decrypt_schedule_reversed (K : List Nat)
    (hK : K.length = 16 ∨ K.length = 24 ∨ K.length = 32) :
    RoundKey K DECRYPT_MODE = (RoundKey K ENCRYPT_MODE).map List.reverse ∧
    ∀ E D, RoundKey K ENCRYPT_MODE = .ok E → RoundKey K DECRYPT_MODE = .ok D →
      ∀ i < E.length, D[i]? = E[E.length - 1 - i]? := by
  constructor
  · rw [RoundKey_encrypt_eq K hK, RoundKey_decrypt_eq K hK]
    rfl
  · intro E D hE hD i hi
    rw [RoundKey_encrypt_eq K hK] at hE
    rw [RoundKey_decrypt_eq K hK] at hD
    injection hE with hE
    injection hD with hD
    subst hE
    subst hD
    exact List.getElem?_reverse hi

/-- Witness for C4 at a concrete 16-byte key. -/
theorem C4_witness :
    RoundKey kW16 DECRYPT_MODE = (RoundKey kW16 ENCRYPT_MODE).map List.reverse :=
  (C4_decrypt_schedule_reversed kW16 (by simp [kW16])).1

/-- C5: the schedule has 24 rounds for a 16-byte key, 28 for 24, 32
for 32, in both directions, and every round key has exactly 6 words. -/
theorem C5_schedule_length (K : List Nat) (mode : Nat)
    (hm : mode = ENCRYPT_MODE ∨ mode = DECRYPT_MODE)
    (hK : K.length = 16 ∨ K.length = 24 ∨ K.length = 32) :
    (RoundKey K mode).map List.length = .ok (NrOf K.length) ∧
    ∀ L, RoundKey K mode = .ok L → ∀ rk ∈ L, (RK6.toList rk).length = 6 := by
  have hsched : (schedOf K).length = NrOf K.length := gen_length _ _ _ _
  constructor
  · rcases hm with h | h <;> subst h
    · rw [RoundKey_encrypt_eq K hK]
      simp [Outcome.map, hsched]
    · rw [RoundKey_decrypt_eq K hK]
      simp [Outcome.map, hsched]
  · intro L hL rk hrk
    rfl

/-- Witness for C5 at a concrete 16-byte key. -/
theorem C5_witness : (RoundKey kW16 ENCRYPT_MODE).map List.length = .ok (NrOf kW16.length) :=
  (C5_schedule_length kW16 ENCRYPT_MODE (Or.inl rfl) (by simp [kW16])).1

/-- C6 counterexample: for a 10-byte key the plain variant's RoundKey
does not return a typed error; it aborts (Go panic), i.e. the claim's
"never an unrecoverable process termination" fails. -/
theorem C6_ten_byte_key_panics :
    RoundKey (List.replicate 10 0) ENCRYPT_MODE =
      .panic "|Key| should 128, 192, or 256 bits." := by
  decide

/-- C6 amended: for a key whose length is not 16, 24, or 32 and a valid
mode, the plain variant's RoundKey aborts with a panic (constructing no
schedule), and the commented variant silently returns an empty
schedule; neither returns a typed InvalidKeyLength error. -/
theorem C6_invalid_key (K : List Nat) (mode : Nat)
    (hm : mode = ENCRYPT_MODE ∨ mode = DECRYPT_MODE)
    (h16 : K.length ≠ 16) (h24 : K.length ≠ 24) (h32 : K.length ≠ 32) :
    RoundKey K mode = .panic "|Key| should 128, 192, or 256 bits." ∧
    RoundKeyC K mode = [] := by
  have hmode : ¬(mode ≠ ENCRYPT_MODE ∧ mode ≠ DECRYPT_MODE) := by
    rcases hm with h | h <;> simp [h]
  constructor
  · unfold RoundKey
    rw [if_neg hmode, if_neg h16, if_neg h24, if_neg h32]
  · unfold RoundKeyC
    rw [if_neg h16, if_neg h24, if_neg h32]

/-- Witness for C6 at a concrete 10-byte key. -/
theorem C6_witness :
    RoundKey (List.replicate 10 0) DECRYPT_MODE =
      .panic "|Key| should 128, 192, or 256 bits." ∧
    RoundKeyC (List.replicate 10 0) DECRYPT_MODE = [] :=
  C6_invalid_key (List.replicate 10 0) DECRYPT_MODE (Or.inr rfl) (by decide) (by decide)
    (by decide)

/-- C7: for every word and every rotation amount below 64, rotating
right then left by the same amount is the identity, and only the
amount modulo 32 matters. -/
theorem C7_rotation_inverse (w r : Nat) (hw : w < M) (hr : r < 64) :
    rol (ror w r) r = w ∧ ror w r = ror w (r % 32) ∧ rol w r = rol w (r % 32) := by
  refine ⟨rol_ror w r hw, ?_, ?_⟩
  · unfold ror
    rw [Nat.mod_mod_of_dvd r (dvd_refl 32)]
  · unfold rol
    rw [Nat.mod_mod_of_dvd r (dvd_refl 32)]

/-- Witness for C7 at a concrete word and amount (a boundary case,
r = 32). -/
theorem C7_witness :
    rol (ror 123456789 32) 32 = 123456789 ∧
    ror 123456789 32 = ror 123456789 (32 % 32) ∧
    rol 123456789 32 = rol 123456789 (32 % 32) :=
  C7_rotation_inverse 123456789 32 (by norm_num [M]) (by norm_num)

/-- C8: every round key of a 16-byte-key schedule, in either direction,
has identical words at positions 1, 3, and 5 (state word T1 reused). -/
theorem C8_rk_word_redundancy (K : List Nat) (mode : Nat) (hK : K.length = 16)
    (hm : mode = ENCRYPT_MODE ∨ mode = DECRYPT_MODE) (L : List RK6)
    (hL : RoundKey K mode = .ok L) :
    ∀ rk ∈ L, rk.k1 = rk.k3 ∧ rk.k1 = rk.k5 := by
  have hmode : ¬(mode ≠ ENCRYPT_MODE ∧ mode ≠ DECRYPT_MODE) := by
    rcases hm with h | h <;> simp [h]
  unfold RoundKey at hL
  rw [if_neg hmode, if_pos hK] at hL
  injection hL with hL
  subst hL
  apply ksAux_mem_invariant step128 (fun rk => rk.k1 = rk.k3 ∧ rk.k1 = rk.k5)
    (fun i T => ⟨rfl, rfl⟩)
  intro rk h
  rw [List.eq_of_mem_replicate h]
  exact ⟨rfl, rfl⟩

/-- Witness for C8: the first round key of a concrete 16-byte-key
schedule. -/
theorem C8_witness : rkW.k1 = rkW.k3 ∧ rkW.k1 = rkW.k5 :=
  C8_rk_word_redundancy kW16 ENCRYPT_MODE (by simp [kW16]) (Or.inl rfl) schedW rfl
    rkW (by decide)

/-- C9: in the commented variant, a mode outside
{ENCRYPT_MODE, DECRYPT_MODE} reaching encdec applies no round at all
and returns the block unmodified instead of erroring. -/
theorem C9_invalid_mode_identity (B : Block16) (RK : List RK6) (m : Nat)
    (hB : B.valid) (h0 : m ≠ ENCRYPT_MODE) (h1 : m ≠ DECRYPT_MODE) :
    encdecC B RK m = B := by
  unfold encdecC
  rw [roundsC_invalid m h0 h1, fromWords_toWords B hB]

/-- Witness for C9 at a concrete block, schedule and mode 2. -/
theorem C9_witness : encdecC blockW [⟨1, 2, 3, 4, 5, 6⟩] 2 = blockW :=
  C9_invalid_mode_identity blockW [⟨1, 2, 3, 4, 5, 6⟩] 2 (by decide) (by decide)
    (by decide)

/-- C10: with an empty key schedule (as the commented variant's
RoundKey returns for an unrecognized key length), encryption and
decryption apply zero rounds and return the block unchanged: the
byte-to-word-to-byte conversion round-trips exactly. -/
theorem C10_empty_schedule_identity (B : Block16) (hB : B.valid) :
    EncryptC B [] = B ∧ DecryptC B [] = B := by
  constructor <;> exact fromWords_toWords B hB

/-- Witness for C10 at a concrete block. -/
theorem C10_witness : EncryptC blockW [] = blockW ∧ DecryptC blockW [] = blockW :=
  C10_empty_schedule_identity blockW (by decide)

end LEA
